import Mathlib

/-!
Shallow embedding of the spaced-repetition core of the `spaced` repository
(files `cards/srs.py`, `cards/models.py`, `cards/cloze.py`,
`cards/views/review.py`), together with theorems settling the frozen claims
about its specification.

Conventions of the embedding:
* Python floats are modelled as rationals (`ℚ`); the arithmetic of the
  SM-2 formulas is exact at this granularity.
* Python `int` is `ℤ`; `round` is Python 3 `round`, i.e. round-half-to-even
  (`pyRound` below).
* Timestamps are rationals measured in days, so `timedelta(days=n)` is
  addition of `n`.
* Raising an exception is modelled with `Except`; Django ORM mutation is
  modelled by explicit state passing.
* `random.shuffle` is modelled by an arbitrary function parameter that is
  assumed (in the theorems) to permute its input.
-/

namespace Spaced

/-- Python 3 `round` on an exact rational: round half to even. -/
def pyRound (x : ℚ) : ℤ :=
  let f : ℤ := ⌊x⌋
  let frac : ℚ := x - f
  if frac < 1/2 then f
  else if 1/2 < frac then f + 1
  else if Even f then f else f + 1

/-! ## `cards/srs.py` -/

/-- `MIN_EASE_FACTOR = 1.3` — minimum ease factor. -/
def MIN_EASE_FACTOR : ℚ := 13/10

/-- `DEFAULT_EASE_FACTOR = 2.5` — starting ease factor for new cards. -/
def DEFAULT_EASE_FACTOR : ℚ := 5/2

/-- `FIRST_INTERVAL = 1` — first successful review: 1 day. -/
def FIRST_INTERVAL : ℤ := 1

/-- `SECOND_INTERVAL = 6` — second successful review: 6 days. -/
def SECOND_INTERVAL : ℤ := 6

/-- `srs.calculate_ease_factor`:
`adjustment = 0.1 - (5 - quality) * (0.08 + (5 - quality) * 0.02)`,
`return max(MIN_EASE_FACTOR, current_ease + adjustment)`. -/
def calculate_ease_factor (current_ease : ℚ) (quality : ℤ) : ℚ :=
  let adjustment : ℚ :=
    1/10 - ((5 - quality : ℤ) : ℚ) * (8/100 + ((5 - quality : ℤ) : ℚ) * (2/100))
  let new_ease := current_ease + adjustment
  max MIN_EASE_FACTOR new_ease

/-- `srs.calculate_interval`: returns `(new_interval, new_repetitions)`.
Failure (`quality < 3`) resets to `(1, 0)`; success increments repetitions
and picks 1 / 6 / `round(current_interval * ease_factor)` depending on the
pre-update repetition count. -/
def calculate_interval (current_interval : ℤ) (repetitions : ℤ)
    (ease_factor : ℚ) (quality : ℤ) : ℤ × ℤ :=
  if quality < 3 then
    (1, 0)
  else
    let new_repetitions := repetitions + 1
    let new_interval :=
      if repetitions = 0 then FIRST_INTERVAL
      else if repetitions = 1 then SECOND_INTERVAL
      else pyRound ((current_interval : ℚ) * ease_factor)
    (new_interval, new_repetitions)

/-- `srs.ReviewResult` — immutable result of a review calculation. -/
structure ReviewResult where
  ease_factor : ℚ
  interval : ℤ
  repetitions : ℤ
  next_review : ℚ
  deriving DecidableEq, Repr

/-- `srs.calculate_review`: validates `quality ∈ [0,5]` (raising `ValueError`,
the spec's `InvalidQualityError`, otherwise), then combines
`calculate_interval` and `calculate_ease_factor` and schedules
`next_review = review_time + timedelta(days=new_interval)`. -/
def calculate_review (current_ease : ℚ) (current_interval : ℤ)
    (repetitions : ℤ) (quality : ℤ) (review_time : ℚ) :
    Except String ReviewResult :=
  if quality < 0 ∨ 5 < quality then
    .error "Quality must be between 0 and 5"
  else
    let p := calculate_interval current_interval repetitions current_ease quality
    let new_ease := calculate_ease_factor current_ease quality
    .ok { ease_factor := new_ease
          interval := p.1
          repetitions := p.2
          next_review := review_time + (p.1 : ℚ) }

/-- `srs.estimate_retention`: `min(0.99, 0.9 + 0.05 * (ef - 1.3) / (2.5 - 1.3))`.
The `interval` argument is accepted (as in the source) but unused. -/
def estimate_retention (interval : ℤ) (ease_factor : ℚ) : ℚ :=
  let base_retention : ℚ := 9/10
  let ease_adjustment := (ease_factor - MIN_EASE_FACTOR) / (DEFAULT_EASE_FACTOR - MIN_EASE_FACTOR)
  let ease_boost := (5/100) * ease_adjustment
  min (99/100) (base_retention + ease_boost)

/-! ## `cards/models.py` -/

/-- `Card.CardType` choices. -/
inductive CardType where
  | basic
  | cloze
  | reverse
  deriving DecidableEq, Repr, Inhabited

/-- The SRS-relevant state of a `cards.models.Card` row.  `id` stands for the
primary key, `front` for the card text searched for cloze markers; the
scheduling fields carry their model defaults
(`ease_factor=2.5, interval=0, repetitions=0, has_been_reviewed=False`). -/
structure Card where
  id : ℕ
  card_type : CardType := CardType.basic
  front : String := ""
  ease_factor : ℚ := DEFAULT_EASE_FACTOR
  interval : ℤ := 0
  repetitions : ℤ := 0
  next_review : ℚ := 0
  last_reviewed : Option ℚ := none
  has_been_reviewed : Bool := false
  deriving DecidableEq, Repr, Inhabited

/-- `Card.is_due`: `self.repetitions > 0 and self.next_review <= timezone.now()`. -/
def Card.is_due (c : Card) (now : ℚ) : Bool :=
  decide (0 < c.repetitions) && decide (c.next_review ≤ now)

/-- `cards.models.ReviewLog` — immutable log entry created by `Card.review`. -/
structure ReviewLog where
  card_id : ℕ
  quality : ℤ
  ease_factor_before : ℚ
  ease_factor_after : ℚ
  interval_before : ℤ
  interval_after : ℤ
  deriving DecidableEq, Repr

/-- `Card.review`: calls `srs.calculate_review` (which validates the quality
before anything else), then assigns the new scheduling fields, sets
`last_reviewed = now` and `has_been_reviewed = True`, and creates the
`ReviewLog`.  The exception from `calculate_review` propagates before any
field assignment, which the `Except` bind mirrors. -/
def Card.review (c : Card) (quality : ℤ) (now : ℚ) :
    Except String (Card × ReviewLog) :=
  match calculate_review c.ease_factor c.interval c.repetitions quality now with
  | .error e => .error e
  | .ok result =>
      .ok ({ c with
              ease_factor := result.ease_factor
              interval := result.interval
              repetitions := result.repetitions
              next_review := result.next_review
              last_reviewed := some now
              has_been_reviewed := true },
           { card_id := c.id
             quality := quality
             ease_factor_before := c.ease_factor
             ease_factor_after := result.ease_factor
             interval_before := c.interval
             interval_after := result.interval })

/-- The persisted state touched by a review request: the card row and the
append-only review log. -/
structure Store where
  card : Card
  logs : List ReviewLog
  deriving DecidableEq, Repr

/-- One review request against the store: `card.review(quality)` either
raises (leaving the persisted state exactly as it was — the exception is
thrown before any assignment) or persists the updated card and appends the
new log entry.  Returns the resulting store and the error, if any. -/
def apply_review (s : Store) (quality : ℤ) (now : ℚ) : Store × Option String :=
  match Card.review s.card quality now with
  | .error e => (s, some e)
  | .ok (c, log) => ({ card := c, logs := s.logs ++ [log] }, none)

/-- Streak state of `cards.models.UserPreferences` (dates as integer day
numbers). -/
structure Prefs where
  current_streak : ℤ := 0
  longest_streak : ℤ := 0
  last_study_date : Option ℤ := none
  deriving DecidableEq, Repr

/-- `UserPreferences.update_streak`: start/extend/reset the daily streak and
update the longest streak. -/
def update_streak (p : Prefs) (today : ℤ) : Prefs :=
  let p1 :=
    match p.last_study_date with
    | none => { p with current_streak := 1, last_study_date := some today }
    | some d =>
        if d = today then p
        else if d = today - 1 then
          { p with current_streak := p.current_streak + 1
                   last_study_date := some today }
        else
          { p with current_streak := 1, last_study_date := some today }
  if p1.longest_streak < p1.current_streak then
    { p1 with longest_streak := p1.current_streak }
  else p1

/-! ## `cards/cloze.py`

`CLOZE_PATTERN = \x7b\x7bc(\d+)::([^:}]+)(?:::([^}]+))?\x7d\x7d` scanned with
`finditer`: at each position the scanner tries to match
`{{c<digits>::<body>}}` or `{{c<digits>::<body>::<hint>}}` (body nonempty,
free of `:` and `}`; hint nonempty, free of `}`), yielding the group number
and continuing after the match, otherwise it advances one character. -/

/-- Decimal value of a digit run, as `int(...)` of the matched group. -/
def digitsToNat (ds : List Char) : ℕ :=
  ds.foldl (fun acc ch => 10 * acc + (ch.toNat - Char.toNat '0')) 0

/-- Try to match `CLOZE_PATTERN` at the head of the character list.  On
success, return the cloze group number and the characters after the match. -/
def matchClozeAt (s : List Char) : Option (ℕ × List Char) :=
  match s with
  | '\x7b' :: '\x7b' :: 'c' :: rest =>
      let digits := rest.takeWhile (·.isDigit)
      let rest1 := rest.dropWhile (·.isDigit)
      if digits.isEmpty then none
      else
        let num := digitsToNat digits
        match rest1 with
        | ':' :: ':' :: rest2 =>
            let body := rest2.takeWhile (fun ch => ch ≠ ':' ∧ ch ≠ '\x7d')
            let rest3 := rest2.dropWhile (fun ch => ch ≠ ':' ∧ ch ≠ '\x7d')
            if body.isEmpty then none
            else
              match rest3 with
              | '\x7d' :: '\x7d' :: rest4 => some (num, rest4)
              | ':' :: ':' :: rest4 =>
                  let hint := rest4.takeWhile (· ≠ '\x7d')
                  let rest5 := rest4.dropWhile (· ≠ '\x7d')
                  if hint.isEmpty then none
                  else
                    match rest5 with
                    | '\x7d' :: '\x7d' :: rest6 => some (num, rest6)
                    | _ => none
              | _ => none
        | _ => none
  | _ => none

/-- Fuel-driven `finditer` scan: collect the group numbers of all
non-overlapping `CLOZE_PATTERN` matches, left to right.  Every successful
match consumes at least one character, so fuel `s.length` computes the full
scan. -/
def clozeScanAux : ℕ → List Char → List ℕ
  | 0, _ => []
  | _, [] => []
  | fuel + 1, ch :: rest =>
      match matchClozeAt (ch :: rest) with
      | some (n, rest1) => n :: clozeScanAux fuel rest1
      | none => clozeScanAux fuel rest

/-- `cloze.get_cloze_numbers`: the set of cloze group numbers occurring in
the text, here as a duplicate-free list in first-occurrence order. -/
def get_cloze_numbers (text : String) : List ℕ :=
  (clozeScanAux text.data.length text.data).dedup

/-! ## `cards/views/review.py` -/

/-- The per-user session policy read by `review_session`
(`preferences.max_reviews_per_session`, `0` meaning unlimited, and
`preferences.new_cards_per_day`). -/
structure SessionPolicy where
  max_reviews_per_session : ℕ
  new_cards_per_day : ℕ
  deriving DecidableEq, Repr

/-- The due-card queryset of `review_session`:
`next_review__lte=now, has_been_reviewed=True` (order preserved from the
given collection). -/
def dueCards (cards : List Card) (now : ℚ) : List Card :=
  cards.filter (fun c => decide (c.next_review ≤ now) && c.has_been_reviewed)

/-- The new-card queryset of `review_session`: `has_been_reviewed=False`. -/
def newCards (cards : List Card) : List Card :=
  cards.filter (fun c => !c.has_been_reviewed)

/-- The struggling-card queryset of `review_struggling`:
`ease_factor__lt=2.0, has_been_reviewed=True`. -/
def strugglingCards (cards : List Card) : List Card :=
  cards.filter (fun c => decide (c.ease_factor < 2) && c.has_been_reviewed)

/-- The standard-mode batch of `review_session`: due cards (limited by
`max_reviews_per_session` when positive) followed by at most
`new_cards_per_day` new cards; `none` models the "No cards due for review!"
redirect taken when the combined list is empty (no session is rendered). -/
def review_session_batch (prefs : SessionPolicy) (cards : List Card)
    (now : ℚ) : Option (List Card) :=
  let due := dueCards cards now
  let due_cards :=
    if 0 < prefs.max_reviews_per_session then
      due.take prefs.max_reviews_per_session
    else due
  let new_cards := (newCards cards).take prefs.new_cards_per_day
  let batch := due_cards ++ new_cards
  if batch.isEmpty then none else some batch

/-- One entry of `cards_data`: a presentable item, carrying the card id and
the active cloze group (`none` for non-cloze cards). -/
structure CardItem where
  id : ℕ
  card_type : CardType
  active_cloze : Option ℕ
  deriving DecidableEq, Repr, Inhabited

/-- Cloze expansion of one card, as in the `cards_data` loops: a cloze card
yields one item per distinct cloze number (in `sorted` order), any other
card exactly one item with `active_cloze = None`. -/
def expandCard (c : Card) : List CardItem :=
  if c.card_type = CardType.cloze then
    ((get_cloze_numbers c.front).insertionSort (· ≤ ·)).map
      (fun n => { id := c.id, card_type := c.card_type, active_cloze := some n })
  else
    [{ id := c.id, card_type := c.card_type, active_cloze := none }]

/-- `cards_data` before shuffling: cloze expansion over the selected cards. -/
def expandCards (cards : List Card) : List CardItem :=
  cards.flatMap expandCard

/-- The `while len(cards_data) < target` loop of `review_struggling`:
append `original_cards[len(cards_data) % len(original_cards)]` until the
target size is reached.  One character of fuel is spent per appended item;
each iteration grows the list by one, so fuel `target` always suffices.
(When `orig` is empty the source raises `ZeroDivisionError`; here `getD`
returns `default`, a path no theorem relies on.) -/
def fillLoopAux (orig : List CardItem) (target : ℕ) :
    ℕ → List CardItem → List CardItem
  | 0, cur => cur
  | fuel + 1, cur =>
      if cur.length < target then
        fillLoopAux orig target fuel
          (cur ++ [orig.getD (cur.length % orig.length) default])
      else cur

/-- Cyclic session padding: run the fill loop to the target size. -/
def fillCyclic (orig : List CardItem) (target : ℕ) : List CardItem :=
  fillLoopAux orig target target orig

/-- The struggling-mode batch of `review_struggling` with
`target_session_size = 20`.  The two `random.shuffle` calls are passed in as
functions (`shuffle1` before sizing, `shuffle2` after cyclic filling); the
theorems assume they permute their input.  `none` models the "No struggling
cards to review!" redirect. -/
def review_struggling_batch (cards : List Card)
    (shuffle1 shuffle2 : List CardItem → List CardItem) :
    Option (List CardItem) :=
  let struggling := strugglingCards cards
  if struggling.isEmpty then none
  else
    let cards_data := shuffle1 (expandCards struggling)
    let sized :=
      if 20 < cards_data.length then cards_data.take 20
      else if cards_data.length < 20 then shuffle2 (fillCyclic cards_data 20)
      else cards_data
    some sized

/-- Response of the `practice_card` view. -/
structure PracticeResponse where
  ok : Bool
  correct : Bool
  deriving DecidableEq, Repr

/-- `practice_card`: validate the quality (rejecting with a 400 response and
touching nothing otherwise), then update only the user's streak; the card
and the review log are never touched and no scheduling info is returned. -/
def practice_card (card : Card) (prefs : Prefs) (logs : List ReviewLog)
    (quality : ℤ) (today : ℤ) :
    (Card × Prefs × List ReviewLog) × PracticeResponse :=
  if quality < 0 ∨ 5 < quality then
    ((card, prefs, logs), { ok := false, correct := false })
  else
    ((card, update_streak prefs today, logs),
     { ok := true, correct := decide (3 ≤ quality) })

/-! ### Iterated reviews -/

/-- Apply a finite sequence of reviews `(quality, review_time)` to a schedule
state, recording the `ReviewResult` after each review; `none` if any review
raises.  This is the caller-side loop of repeated `calculate_review`
invocations, each feeding the previous result back in. -/
def reviewTrace (e : ℚ) (i reps : ℤ) : List (ℤ × ℚ) → Option (List ReviewResult)
  | [] => some []
  | (q, t) :: rest =>
      match calculate_review e i reps q t with
      | .error _ => none
      | .ok r =>
          (reviewTrace r.ease_factor r.interval r.repetitions rest).map (r :: ·)

/-! ### Concrete sample data used by witnesses and counterexamples -/

/-- A reviewed card that is due at time 0 (integral field values keep the
kernel able to evaluate comparisons). -/
def wCardDue : Card :=
  { id := 1, ease_factor := 2, next_review := 0, has_been_reviewed := true }

/-- A new (never reviewed) card. -/
def wCardNew : Card := { id := 2, ease_factor := 2 }

/-- A struggling cloze card with two cloze groups. -/
def wCardCloze : Card :=
  { id := 1, card_type := CardType.cloze,
    front := "\x7b\x7bc1::x\x7d\x7d \x7b\x7bc2::y\x7d\x7d",
    ease_factor := 1, has_been_reviewed := true }

/-- A struggling basic card. -/
def wCardStrug2 : Card := { id := 2, ease_factor := 1, has_been_reviewed := true }

/-- Another struggling basic card. -/
def wCardStrug3 : Card := { id := 3, ease_factor := 1, has_been_reviewed := true }

/-! ## Claim C1 — the ease-factor update formula -/

/-- **C1, counterexample.**  The claim asserts the `q = 5` special case
`newEase = e + 0.1` for *every* current ease factor `e`; at `e = 1` the
`max` floor wins: `calculate_ease_factor(1, 5) = 1.3 ≠ 1.1`. -/
theorem c1_counterexample :
    calculate_ease_factor 1 5 = 13/10 ∧ (13/10 : ℚ) ≠ 1 + 1/10 := by
  constructor
  · norm_num [calculate_ease_factor, MIN_EASE_FACTOR, max_def]
  · norm_num

/-- **C1 (amended).**  For every current ease factor `e` and integer quality
`q ∈ [0,5]`, the new ease factor equals
`max(1.3, e + (0.1 - (5-q)*(0.08 + (5-q)*0.02)))`; for `q = 5` *and*
`e ≥ 1.3` the new ease equals `e + 0.1`, and for `q = 4` and `e ≥ 1.3` the
new ease equals `e` exactly. -/
theorem c1_ease_factor_update (e : ℚ) (q : ℤ) (hq0 : 0 ≤ q) (hq5 : q ≤ 5) :
    calculate_ease_factor e q
        = max (13/10)
            (e + (1/10 - ((5 - q : ℤ) : ℚ) * (8/100 + ((5 - q : ℤ) : ℚ) * (2/100))))
      ∧ (q = 5 → MIN_EASE_FACTOR ≤ e → calculate_ease_factor e q = e + 1/10)
      ∧ (q = 4 → MIN_EASE_FACTOR ≤ e → calculate_ease_factor e q = e) := by
  refine ⟨rfl, ?_, ?_⟩
  · rintro rfl he
    rw [MIN_EASE_FACTOR] at he
    show max MIN_EASE_FACTOR _ = _
    rw [MIN_EASE_FACTOR]
    rw [max_eq_right (by push_cast; linarith)]
    push_cast
    ring
  · rintro rfl he
    rw [MIN_EASE_FACTOR] at he
    show max MIN_EASE_FACTOR _ = _
    rw [MIN_EASE_FACTOR]
    rw [max_eq_right (by push_cast; linarith)]
    push_cast
    ring

/-- Witness for `c1_ease_factor_update` at `e = 5/2`, `q = 5`. -/
theorem c1_ease_factor_update_witness :
    calculate_ease_factor (5/2) 5
        = max (13/10)
            ((5/2 : ℚ) + (1/10 - ((5 - 5 : ℤ) : ℚ) * (8/100 + ((5 - 5 : ℤ) : ℚ) * (2/100))))
      ∧ calculate_ease_factor (5/2) 5 = 5/2 + 1/10 := by
  have h := c1_ease_factor_update (5/2) 5 (by decide) (by decide)
  exact ⟨h.1, h.2.1 rfl (by norm_num [MIN_EASE_FACTOR])⟩

/-! ## Claim C5 — low-quality reviews and the 1.3 floor -/

/-- **C5, counterexample.**  The claim asserts `newEase < e` for every ease
factor `e` and quality `q ∈ {0,1,2}`; starting *at* the floor `e = 1.3`,
quality 0 leaves the ease factor exactly at `1.3`, not strictly below. -/
theorem c5_counterexample :
    calculate_ease_factor (13/10) 0 = 13/10
      ∧ ¬ calculate_ease_factor (13/10) 0 < 13/10 := by
  constructor
  · norm_num [calculate_ease_factor, MIN_EASE_FACTOR, max_def]
  · norm_num [calculate_ease_factor, MIN_EASE_FACTOR, max_def]

/-- **C5 (amended).**  For every quality `q ∈ {0,1,2}` the new ease factor is
strictly below the current one whenever the current one is strictly above
the floor `1.3`; the result never drops below `1.3`, and from the floor
itself a low-quality review keeps the ease factor exactly at `1.3` (so the
floor survives arbitrarily many low-quality reviews). -/
theorem c5_low_quality_floor (e : ℚ) (q : ℤ) (hq : q = 0 ∨ q = 1 ∨ q = 2) :
    MIN_EASE_FACTOR ≤ calculate_ease_factor e q
      ∧ (MIN_EASE_FACTOR < e → calculate_ease_factor e q < e)
      ∧ (e = MIN_EASE_FACTOR → calculate_ease_factor e q = MIN_EASE_FACTOR) := by
  have hfloor : ∀ e1 q1, MIN_EASE_FACTOR ≤ calculate_ease_factor e1 q1 :=
    fun e1 q1 => le_max_left _ _
  have hadj : ∃ a : ℚ, a ≤ -(32/100)
      ∧ calculate_ease_factor e q = max MIN_EASE_FACTOR (e + a) := by
    rcases hq with rfl | rfl | rfl
    · exact ⟨-(8/10), by norm_num, by norm_num [calculate_ease_factor]⟩
    · exact ⟨-(54/100), by norm_num, by norm_num [calculate_ease_factor]⟩
    · exact ⟨-(32/100), by norm_num, by norm_num [calculate_ease_factor]⟩
  obtain ⟨a, ha, heq⟩ := hadj
  rw [MIN_EASE_FACTOR] at *
  refine ⟨hfloor e q, ?_, ?_⟩
  · intro he
    rw [heq]
    exact max_lt (by linarith) (by linarith)
  · rintro rfl
    rw [heq, max_eq_left (by linarith)]

/-- Witness for `c5_low_quality_floor` at `e = 5/2`, `q = 2`. -/
theorem c5_low_quality_floor_witness :
    MIN_EASE_FACTOR ≤ calculate_ease_factor (5/2) 2
      ∧ calculate_ease_factor (5/2) 2 < 5/2
      ∧ ((5/2 : ℚ) = MIN_EASE_FACTOR → calculate_ease_factor (5/2) 2 = MIN_EASE_FACTOR) := by
  have h := c5_low_quality_floor (5/2) 2 (by right; right; rfl)
  exact ⟨h.1, h.2.1 (by norm_num [MIN_EASE_FACTOR]), h.2.2⟩

/-! ## Claim C4 — due classification -/

/-- **C4, counterexample.**  The claim says a card is classified as due iff
`has_been_reviewed ∧ next_review ≤ now`.  `Card.is_due` instead tests
`repetitions > 0`: a card whose last review failed (so
`has_been_reviewed = True` but `repetitions = 0`) with `next_review` in the
past satisfies the claim's predicate, yet `is_due` returns `False`. -/
theorem c4_counterexample :
    Card.is_due
        { id := 4, ease_factor := 2, repetitions := 0,
          next_review := 0, has_been_reviewed := true } 1 = false
      ∧ Card.has_been_reviewed
          { id := 4, ease_factor := 2, repetitions := 0,
            next_review := 0, has_been_reviewed := true } = true
      ∧ Card.next_review
          { id := 4, ease_factor := 2, repetitions := 0,
            next_review := 0, has_been_reviewed := true } ≤ 1 := by
  refine ⟨by decide, rfl, by decide⟩

/-- **C4 (amended).**  The session selector's pools follow the spec
predicate — the due pool contains exactly the cards with
`has_been_reviewed ∧ next_review ≤ now` (and the struggling pool
additionally `ease_factor < 2`), so a card with `has_been_reviewed = false`
never appears in a due or struggling pool regardless of its ease factor or
next-review time — but the `Card.is_due` helper classifies with
`repetitions > 0 ∧ next_review ≤ now` instead, which disagrees with the
pool predicate exactly when `repetitions = 0` differs from
`has_been_reviewed = false`. -/
theorem c4_due_classification (cards : List Card) (c : Card) (now : ℚ) :
    (c ∈ dueCards cards now ↔
        c ∈ cards ∧ c.has_been_reviewed = true ∧ c.next_review ≤ now)
      ∧ (c ∈ strugglingCards cards ↔
          c ∈ cards ∧ c.has_been_reviewed = true ∧ c.ease_factor < 2)
      ∧ (c.has_been_reviewed = false →
          c ∉ dueCards cards now ∧ c ∉ strugglingCards cards)
      ∧ (c.is_due now = true ↔ 0 < c.repetitions ∧ c.next_review ≤ now) := by
  have hdue : c ∈ dueCards cards now ↔
      c ∈ cards ∧ c.has_been_reviewed = true ∧ c.next_review ≤ now := by
    rw [dueCards, List.mem_filter]
    simp only [Bool.and_eq_true, decide_eq_true_eq]
    tauto
  have hstr : c ∈ strugglingCards cards ↔
      c ∈ cards ∧ c.has_been_reviewed = true ∧ c.ease_factor < 2 := by
    rw [strugglingCards, List.mem_filter]
    simp only [Bool.and_eq_true, decide_eq_true_eq]
    tauto
  refine ⟨hdue, hstr, fun hnew => ⟨?_, ?_⟩, ?_⟩
  · rw [hdue]
    rintro ⟨-, habs, -⟩
    rw [hnew] at habs
    exact Bool.noConfusion habs
  · rw [hstr]
    rintro ⟨-, habs, -⟩
    rw [hnew] at habs
    exact Bool.noConfusion habs
  · rw [Card.is_due]
    simp only [Bool.and_eq_true, decide_eq_true_eq]

/-- Witness for `c4_due_classification`: a new (never-reviewed) card is in
neither pool even though its `next_review` is in the past and its ease is
low. -/
theorem c4_due_classification_witness :
    ({ id := 5, ease_factor := 1 } : Card) ∉
        dueCards [{ id := 5, ease_factor := 1 }] 1
      ∧ ({ id := 5, ease_factor := 1 } : Card) ∉
        strugglingCards [{ id := 5, ease_factor := 1 }] :=
  (c4_due_classification [{ id := 5, ease_factor := 1 }]
    { id := 5, ease_factor := 1 } 1).2.2.1 rfl

/-! ## Claim C6 — the standard-mode session batch -/

/-- **C6 (confirmed).**  Whenever the standard-mode selector produces a
batch, the batch is the selected due cards — the first
`max_reviews_per_session` of the due pool when that limit is positive, the
whole due pool when the limit is `0` (unlimited) — followed by at most
`new_cards_per_day` new cards; and it produces no batch (the
nothing-to-do redirect, no session rendered) exactly when both selected
lists are empty. -/
theorem c6_standard_batch (prefs : SessionPolicy) (cards : List Card) (now : ℚ) :
    (∀ batch, review_session_batch prefs cards now = some batch →
        ∃ d n2, batch = d ++ n2
          ∧ d = (if 0 < prefs.max_reviews_per_session then
                  (dueCards cards now).take prefs.max_reviews_per_session
                 else dueCards cards now)
          ∧ n2 = (newCards cards).take prefs.new_cards_per_day
          ∧ (∀ c ∈ d, c.has_been_reviewed = true ∧ c.next_review ≤ now)
          ∧ (∀ c ∈ n2, c.has_been_reviewed = false)
          ∧ (0 < prefs.max_reviews_per_session →
              d.length ≤ prefs.max_reviews_per_session)
          ∧ (prefs.max_reviews_per_session = 0 → d = dueCards cards now)
          ∧ n2.length ≤ prefs.new_cards_per_day)
      ∧ (review_session_batch prefs cards now = none ↔
          (if 0 < prefs.max_reviews_per_session then
            (dueCards cards now).take prefs.max_reviews_per_session
           else dueCards cards now) = []
          ∧ (newCards cards).take prefs.new_cards_per_day = []) := by
  have hdue : ∀ c ∈ dueCards cards now,
      c.has_been_reviewed = true ∧ c.next_review ≤ now := by
    intro c hc
    rw [dueCards, List.mem_filter] at hc
    have := hc.2
    simp only [Bool.and_eq_true, decide_eq_true_eq] at this
    tauto
  have hnew : ∀ c ∈ newCards cards, c.has_been_reviewed = false := by
    intro c hc
    rw [newCards, List.mem_filter] at hc
    have := hc.2
    simpa using this
  set d := (if 0 < prefs.max_reviews_per_session then
      (dueCards cards now).take prefs.max_reviews_per_session
    else dueCards cards now) with hd
  set n2 := (newCards cards).take prefs.new_cards_per_day with hn2
  have hrsb : review_session_batch prefs cards now
      = if (d ++ n2).isEmpty then none else some (d ++ n2) := rfl
  have hdsub : ∀ c ∈ d, c ∈ dueCards cards now := by
    rw [hd]
    split
    · exact fun c hc => List.mem_of_mem_take hc
    · exact fun c hc => hc
  constructor
  · intro batch hbatch
    rw [hrsb] at hbatch
    split at hbatch
    · exact Option.noConfusion hbatch
    · refine ⟨d, n2, (Option.some.inj hbatch).symm, hd, hn2, ?_, ?_, ?_, ?_, ?_⟩
      · exact fun c hc => hdue c (hdsub c hc)
      · exact fun c hc => hnew c (List.mem_of_mem_take hc)
      · intro hpos
        rw [hd, if_pos hpos]
        exact List.length_take_le _ _
      · intro h0
        rw [hd, if_neg (by omega)]
      · rw [hn2]
        exact List.length_take_le _ _
  · rw [hrsb]
    split
    · rename_i hempty
      rw [List.isEmpty_iff, List.append_eq_nil] at hempty
      exact ⟨fun _ => hempty, fun _ => rfl⟩
    · rename_i hne
      rw [List.isEmpty_iff, List.append_eq_nil] at hne
      exact ⟨fun habs => Option.noConfusion habs, fun hctr => absurd hctr hne⟩

/-- Witness for `c6_standard_batch`: one due card plus one new card, limits
1/1. -/
theorem c6_standard_batch_witness :
    ∃ d n2, [wCardDue, wCardNew] = d ++ n2
      ∧ d = (if 0 < (1:ℕ) then (dueCards [wCardDue, wCardNew] 0).take 1
             else dueCards [wCardDue, wCardNew] 0)
      ∧ n2 = (newCards [wCardDue, wCardNew]).take 1
      ∧ (∀ c ∈ d, c.has_been_reviewed = true ∧ c.next_review ≤ 0)
      ∧ (∀ c ∈ n2, c.has_been_reviewed = false)
      ∧ (0 < (1:ℕ) → d.length ≤ 1)
      ∧ ((1:ℕ) = 0 → d = dueCards [wCardDue, wCardNew] 0)
      ∧ n2.length ≤ 1 :=
  (c6_standard_batch ⟨1, 1⟩ [wCardDue, wCardNew] 0).1
    [wCardDue, wCardNew] (by decide)

/-! ## Claim C9 — the retention estimate -/

/-- **C9, counterexample.**  The claim asserts that raising the ease factor
raises the retention estimate; once the `0.99` cap is reached the estimate
stops growing: at ease factors `3.5 < 4` (both legitimately reachable, since
quality-5 reviews raise the ease without bound) both estimates are `0.99`. -/
theorem c9_counterexample :
    (7/2 : ℚ) < 4
      ∧ estimate_retention 10 (7/2) = 99/100
      ∧ estimate_retention 10 4 = 99/100 := by
  refine ⟨by norm_num, ?_, ?_⟩ <;>
    norm_num [estimate_retention, MIN_EASE_FACTOR, DEFAULT_EASE_FACTOR, min_def]

/-- **C9 (amended).**  For every interval and ease factors `1.3 ≤ e1 ≤ e2`,
the retention estimate lies in `(0, 1]` and is monotone non-decreasing in
the ease factor; it increases strictly as long as the `0.99` cap has not
been reached. -/
theorem c9_retention_estimate (i : ℤ) (e1 e2 : ℚ)
    (h1 : MIN_EASE_FACTOR ≤ e1) (h12 : e1 ≤ e2) :
    0 < estimate_retention i e1
      ∧ estimate_retention i e1 ≤ 1
      ∧ estimate_retention i e1 ≤ estimate_retention i e2
      ∧ (e1 < e2 → estimate_retention i e2 < 99/100 →
          estimate_retention i e1 < estimate_retention i e2) := by
  have key : ∀ e : ℚ, estimate_retention i e
      = min (99/100) (9/10 + (e - 13/10) * (1/24)) := by
    intro e
    show min (99/100) (9/10 + 5/100 * ((e - MIN_EASE_FACTOR) / (DEFAULT_EASE_FACTOR - MIN_EASE_FACTOR))) = _
    rw [MIN_EASE_FACTOR, DEFAULT_EASE_FACTOR]
    congr 1
    field_simp
    ring
  rw [MIN_EASE_FACTOR] at h1
  rw [key e1, key e2]
  refine ⟨?_, ?_, ?_, ?_⟩
  · refine lt_min (by norm_num) (by linarith)
  · exact le_trans (min_le_left _ _) (by norm_num)
  · exact min_le_min le_rfl (by linarith)
  · intro hlt hcap
    have hraw2 : 9/10 + (e2 - 13/10) * (1/24) < 99/100 := by
      by_contra hge
      push_neg at hge
      rw [min_eq_left (by linarith)] at hcap
      exact absurd hcap (by norm_num)
    rw [min_eq_right (le_of_lt hraw2)]
    have hmono : (9:ℚ)/10 + (e1 - 13/10) * (1/24)
        < 9/10 + (e2 - 13/10) * (1/24) := by linarith
    exact lt_of_le_of_lt (min_le_right _ _) hmono

/-! ## Claim C2 — interval/repetition update and next-review scheduling -/

/-- **C2 (confirmed).**  For every review with quality `q ∈ [0,5]`: if
`q < 3` the new interval is 1 and the new repetition count 0, regardless of
the prior state; if `q ≥ 3` the repetition count is incremented, and the new
interval is 1 when `reps = 0`, 6 when `reps = 1`, and
`round(current_interval * current_ease)` otherwise (pre-update ease and
interval); `next_review` is the review time plus the new interval in days. -/
theorem c2_interval_update (e : ℚ) (i reps q : ℤ) (t : ℚ)
    (hq0 : 0 ≤ q) (hq5 : q ≤ 5) :
    ∃ r, calculate_review e i reps q t = .ok r
      ∧ (q < 3 → r.interval = 1 ∧ r.repetitions = 0)
      ∧ (3 ≤ q → r.repetitions = reps + 1
          ∧ (reps = 0 → r.interval = 1)
          ∧ (reps = 1 → r.interval = 6)
          ∧ (reps ≠ 0 → reps ≠ 1 → r.interval = pyRound ((i : ℚ) * e)))
      ∧ r.next_review = t + (r.interval : ℚ) := by
  have hok : calculate_review e i reps q t
      = .ok { ease_factor := calculate_ease_factor e q
              interval := (calculate_interval i reps e q).1
              repetitions := (calculate_interval i reps e q).2
              next_review := t + ((calculate_interval i reps e q).1 : ℚ) } := by
    rw [calculate_review, if_neg (by omega)]
  refine ⟨_, hok, ?_, ?_, rfl⟩
  · intro h3
    rw [calculate_interval, if_pos h3]
    exact ⟨rfl, rfl⟩
  · intro h3
    rw [calculate_interval, if_neg (by omega)]
    refine ⟨rfl, ?_, ?_, ?_⟩
    · intro h0
      simp [h0, FIRST_INTERVAL]
    · intro h1
      rcases eq_or_ne reps 0 with h0 | h0
      · omega
      · simp [h0, h1, SECOND_INTERVAL]
    · intro h0 h1
      simp [h0, h1]

/-- Witness for `c2_interval_update`: third successful review of a card at
ease 5/2, interval 6, 2 repetitions, quality 4, reviewed at time 0. -/
theorem c2_interval_update_witness :
    ∃ r, calculate_review (5/2) 6 2 4 0 = .ok r
      ∧ ((4:ℤ) < 3 → r.interval = 1 ∧ r.repetitions = 0)
      ∧ ((3:ℤ) ≤ 4 → r.repetitions = 2 + 1
          ∧ ((2:ℤ) = 0 → r.interval = 1)
          ∧ ((2:ℤ) = 1 → r.interval = 6)
          ∧ ((2:ℤ) ≠ 0 → (2:ℤ) ≠ 1 → r.interval = pyRound (((6:ℤ) : ℚ) * (5/2))))
      ∧ r.next_review = 0 + (r.interval : ℚ) :=
  c2_interval_update (5/2) 6 2 4 0 (by decide) (by decide)

/-! ## Claim C3 — quality validation and absence of partial mutation -/

/-- **C3 (confirmed).**  A review request errors (the spec's
`InvalidQualityError`, a `ValueError` in the source) exactly when the
quality lies outside `[0,5]`; in that case the persisted state — the card's
schedule and the review log — is exactly what it was (the exception is
raised by `calculate_review` before any assignment), and for `q ∈ [0,5]`
the review never raises. -/
theorem c3_invalid_quality (s : Store) (q : ℤ) (now : ℚ) :
    ((∃ err, Card.review s.card q now = .error err) ↔ (q < 0 ∨ 5 < q))
      ∧ ((q < 0 ∨ 5 < q) → (apply_review s q now).1 = s)
      ∧ (0 ≤ q → q ≤ 5 → ∃ res, Card.review s.card q now = .ok res) := by
  by_cases h : q < 0 ∨ 5 < q
  · refine ⟨⟨fun _ => h, fun _ => ⟨"Quality must be between 0 and 5", ?_⟩⟩,
      fun _ => ?_, fun h0 h5 => absurd h (by omega)⟩
    · rw [Card.review, calculate_review, if_pos h]
    · rw [apply_review, Card.review, calculate_review, if_pos h]
  · have hok : calculate_review s.card.ease_factor s.card.interval
        s.card.repetitions q now
        = .ok { ease_factor := calculate_ease_factor s.card.ease_factor q
                interval := (calculate_interval s.card.interval s.card.repetitions
                  s.card.ease_factor q).1
                repetitions := (calculate_interval s.card.interval s.card.repetitions
                  s.card.ease_factor q).2
                next_review := now + ((calculate_interval s.card.interval
                  s.card.repetitions s.card.ease_factor q).1 : ℚ) } := by
      rw [calculate_review, if_neg h]
    refine ⟨⟨fun hex => ?_, fun hq => absurd hq h⟩,
      fun hq => absurd hq h, fun _ _ => ?_⟩
    · obtain ⟨err, herr⟩ := hex
      rw [Card.review, hok] at herr
      exact Except.noConfusion herr
    · rw [Card.review, hok]
      exact ⟨_, rfl⟩

/-- Witness for `c3_invalid_quality`: a fresh default card, quality 7 (out of
range, state untouched) vs quality 4 (in range, succeeds). -/
theorem c3_invalid_quality_witness :
    ((∃ err, Card.review (Store.card ⟨{ id := 1 }, []⟩) 7 0 = .error err)
        ↔ ((7:ℤ) < 0 ∨ (5:ℤ) < 7))
      ∧ (((7:ℤ) < 0 ∨ (5:ℤ) < 7) →
          (apply_review ⟨{ id := 1 }, []⟩ 7 0).1 = ⟨{ id := 1 }, []⟩)
      ∧ (∃ res, Card.review (Store.card ⟨{ id := 1 }, []⟩) 4 0 = .ok res) := by
  have h7 := c3_invalid_quality ⟨{ id := 1 }, []⟩ 7 0
  have h4 := c3_invalid_quality ⟨{ id := 1 }, []⟩ 4 0
  exact ⟨h7.1, h7.2.1, h4.2.2 (by decide) (by decide)⟩

/-! ## Claim C8 — practice mode never touches the schedule -/

/-- **C8 (confirmed).**  For every card and quality `q ∈ [0,5]`, a
practice-mode answer leaves the card (hence every `CardSchedule` field:
ease factor, interval, repetitions, next review, last reviewed,
has-been-reviewed) unchanged, creates no review-log entry, and updates only
the user's streak state via `update_streak`. -/
theorem c8_practice_frame (card : Card) (prefs : Prefs) (logs : List ReviewLog)
    (q t : ℤ) (hq0 : 0 ≤ q) (hq5 : q ≤ 5) :
    (practice_card card prefs logs q t).1.1 = card
      ∧ (practice_card card prefs logs q t).1.2.2 = logs
      ∧ (practice_card card prefs logs q t).1.2.1 = update_streak prefs t
      ∧ (practice_card card prefs logs q t).2.ok = true := by
  have h : ¬ (q < 0 ∨ 5 < q) := by omega
  rw [practice_card, if_neg h]
  exact ⟨rfl, rfl, rfl, rfl⟩

/-- Witness for `c8_practice_frame` at a concrete reviewed card, quality 3. -/
theorem c8_practice_frame_witness :
    (practice_card { id := 2, has_been_reviewed := true } ⟨1, 1, some 9⟩ [] 3 10).1.1
        = { id := 2, has_been_reviewed := true }
      ∧ (practice_card { id := 2, has_been_reviewed := true } ⟨1, 1, some 9⟩ [] 3 10).1.2.2 = []
      ∧ (practice_card { id := 2, has_been_reviewed := true } ⟨1, 1, some 9⟩ [] 3 10).1.2.1
        = update_streak ⟨1, 1, some 9⟩ 10
      ∧ (practice_card { id := 2, has_been_reviewed := true } ⟨1, 1, some 9⟩ [] 3 10).2.ok = true :=
  c8_practice_frame { id := 2, has_been_reviewed := true } ⟨1, 1, some 9⟩ [] 3 10
    (by decide) (by decide)

/-- Witness for `c9_retention_estimate` at `i = 10`, `e1 = 2`, `e2 = 5/2`. -/
theorem c9_retention_estimate_witness :
    0 < estimate_retention 10 2
      ∧ estimate_retention 10 2 ≤ 1
      ∧ estimate_retention 10 2 ≤ estimate_retention 10 (5/2)
      ∧ estimate_retention 10 2 < estimate_retention 10 (5/2) := by
  have h := c9_retention_estimate 10 2 (5/2)
    (by norm_num [MIN_EASE_FACTOR]) (by norm_num)
  refine ⟨h.1, h.2.1, h.2.2.1, h.2.2.2 (by norm_num) ?_⟩
  norm_num [estimate_retention, MIN_EASE_FACTOR, DEFAULT_EASE_FACTOR, min_def]

/-! ## Claim C7 — struggling-session sizing -/

/-- **C7, counterexample.**  The claim counts per *card*, but the sizing
operates on cloze-expanded items: over `N = 3` struggling cards where the
first is a cloze card with two cloze groups (so 4 presentable items), the
20-item batch contains the cloze card 10 times — neither
`⌈20/3⌉ = 7` nor `⌊20/3⌋ = 6`.  Identity shuffles (a legitimate shuffle
outcome) are used. -/
theorem c7_counterexample :
    [wCardCloze, wCardStrug2, wCardStrug3].length = 3
      ∧ ((review_struggling_batch [wCardCloze, wCardStrug2, wCardStrug3]
          id id).getD []).length = 20
      ∧ ((review_struggling_batch [wCardCloze, wCardStrug2, wCardStrug3]
          id id).getD []).countP (fun it => it.id == 1) = 10
      ∧ ¬ ((10:ℕ) = 20 / 3 ∨ (10:ℕ) = (20 + 3 - 1) / 3) := by
  decide

/-- Division/modulus step: how `(m+1) / N` and `(m+1) % N` relate to
`m / N` and `m % N`. -/
theorem succ_div_mod (m N : ℕ) (hN : 0 < N) :
    (m % N + 1 = N → (m + 1) / N = m / N + 1 ∧ (m + 1) % N = 0)
      ∧ (m % N + 1 < N → (m + 1) / N = m / N ∧ (m + 1) % N = m % N + 1) := by
  have hdm := Nat.div_add_mod m N
  constructor
  · intro hEq
    have h1 : m + 1 = (m / N + 1) * N := by
      calc m + 1 = N * (m / N) + (m % N + 1) := by omega
        _ = N * (m / N) + N := by rw [hEq]
        _ = (m / N + 1) * N := by ring
    exact ⟨by rw [h1, Nat.mul_div_cancel _ hN], by rw [h1, Nat.mul_mod_left]⟩
  · intro hlt
    have h1 : m + 1 = (m % N + 1) + N * (m / N) := by omega
    constructor
    · rw [h1, Nat.add_mul_div_left _ _ hN, Nat.div_eq_of_lt hlt, Nat.zero_add]
    · rw [h1, Nat.add_mul_mod_self_left, Nat.mod_eq_of_lt hlt]

/-- The number of `k < m` with `k % N = j`, for `j < N`. -/
theorem countP_mod_range (N j : ℕ) (hN : 0 < N) (hjN : j < N) :
    ∀ m : ℕ, (List.range m).countP (fun k => decide (k % N = j))
      = m / N + (if j < m % N then 1 else 0) := by
  intro m
  induction m with
  | zero => simp
  | succ m ihm =>
      rw [List.range_succ, List.countP_append, ihm]
      have hsingle : List.countP (fun k => decide (k % N = j)) [m]
          = if m % N = j then 1 else 0 := by
        rw [List.countP_cons, List.countP_nil]
        simp
      rw [hsingle]
      have hmod : m % N < N := Nat.mod_lt _ hN
      rcases Nat.lt_or_ge (m % N + 1) N with hlt | hge
      · obtain ⟨hdiv2, hmod2⟩ := (succ_div_mod m N hN).2 hlt
        rw [hdiv2, hmod2]
        split_ifs <;> omega
      · have hEq : m % N + 1 = N := by omega
        obtain ⟨hdiv2, hmod2⟩ := (succ_div_mod m N hN).1 hEq
        rw [hdiv2, hmod2]
        split_ifs <;> omega

/-- The ceiling division `(20 + N - 1) / N` is `20 / N + 1` whenever `N`
does not divide 20. -/
theorem ceil_div_twenty (N : ℕ) (hN : 0 < N) (hr : 0 < 20 % N) :
    (20 + N - 1) / N = 20 / N + 1 := by
  have h1 : 20 + N - 1 = 20 + (N - 1) := by omega
  have h2 : (N - 1) / N = 0 := Nat.div_eq_of_lt (by omega)
  have h3 : (N - 1) % N = N - 1 := Nat.mod_eq_of_lt (by omega)
  rw [h1, Nat.add_div hN, h2, h3, if_pos (by omega)]

/-- Closed form of the fill loop: with enough fuel it appends
`orig[k % len(orig)]` for `k = cur.length, …, target - 1`. -/
theorem fillLoopAux_eq (orig : List CardItem) (target : ℕ) :
    ∀ (fuel : ℕ) (cur : List CardItem), target - cur.length ≤ fuel →
      fillLoopAux orig target fuel cur
        = cur ++ (List.range' cur.length (target - cur.length)).map
            (fun k => orig.getD (k % orig.length) default) := by
  intro fuel
  induction fuel with
  | zero =>
      intro cur hle
      have h0 : target - cur.length = 0 := Nat.le_zero.mp hle
      rw [fillLoopAux, h0]
      simp
  | succ fuel ih =>
      intro cur hle
      rw [fillLoopAux]
      by_cases hlt : cur.length < target
      · rw [if_pos hlt]
        rw [ih (cur ++ [orig.getD (cur.length % orig.length) default])
          (by rw [List.length_append]; simp; omega)]
        have hlen : (cur ++ [orig.getD (cur.length % orig.length) default]).length
            = cur.length + 1 := by simp
        rw [hlen]
        have hsub : target - cur.length = (target - (cur.length + 1)) + 1 := by omega
        rw [hsub, List.range'_succ, List.map_cons]
        simp [List.append_assoc]
      · rw [if_neg hlt]
        have h0 : target - cur.length = 0 := by omega
        rw [h0]
        simp

/-- In the cyclically filled list over a duplicate-free base list `l` with
`0 < l.length < 20`, every element of `l` occurs either `⌊20/N⌋ = 20/N` or
`⌈20/N⌉ = (20 + N - 1)/N` times, `N = l.length`. -/
theorem count_fillCyclic (l : List CardItem) (x : CardItem)
    (hnd : l.Nodup) (hx : x ∈ l) (h0 : 0 < l.length) (h20 : l.length < 20) :
    (fillCyclic l 20).count x = 20 / l.length
      ∨ (fillCyclic l 20).count x = (20 + l.length - 1) / l.length := by
  obtain ⟨j, hjN, hget⟩ := List.mem_iff_getElem.mp hx
  have hfill : fillCyclic l 20
      = l ++ (List.range' l.length (20 - l.length)).map
          (fun k => l.getD (k % l.length) default) := by
    rw [fillCyclic, fillLoopAux_eq l 20 20 l (by omega)]
  have hcl : l.count x = 1 := List.count_eq_one_of_mem hnd hx
  have hmap : ((List.range' l.length (20 - l.length)).map
        (fun k => l.getD (k % l.length) default)).count x
      = (List.range' l.length (20 - l.length)).countP
          (fun k => decide (k % l.length = j)) := by
    rw [List.count_eq_countP, List.countP_map]
    apply List.countP_congr
    intro k hk
    have hkN : k % l.length < l.length := Nat.mod_lt _ h0
    show (l.getD (k % l.length) default == x) = true
        ↔ decide (k % l.length = j) = true
    rw [List.getD_eq_getElem _ _ hkN]
    constructor
    · intro hbeq
      have hgx : l.get ⟨k % l.length, hkN⟩ = x := eq_of_beq hbeq
      rw [← hget] at hgx
      have hkj : k % l.length = j := (List.Nodup.getElem_inj_iff hnd).mp hgx
      exact decide_eq_true hkj
    · intro hdec
      have hkj : k % l.length = j := of_decide_eq_true hdec
      have hgx : l.get ⟨k % l.length, hkN⟩ = x := by
        rw [← hget]
        exact (List.Nodup.getElem_inj_iff hnd).mpr hkj
      exact beq_iff_eq.mpr hgx
  have hrangeN : (List.range l.length).countP
      (fun k => decide (k % l.length = j)) = 1 := by
    have hcnt : (List.range l.length).countP (fun k => decide (k % l.length = j))
        = (List.range l.length).count j := by
      rw [List.count_eq_countP]
      apply List.countP_congr
      intro k hk
      have hkltN : k < l.length := List.mem_range.mp hk
      rw [Nat.mod_eq_of_lt hkltN]
      simp
    rw [hcnt]
    exact List.count_eq_one_of_mem (List.nodup_range _) (List.mem_range.mpr hjN)
  have hsplit : (List.range l.length).countP (fun k => decide (k % l.length = j))
        + (List.range' l.length (20 - l.length)).countP
            (fun k => decide (k % l.length = j))
      = (List.range 20).countP (fun k => decide (k % l.length = j)) := by
    rw [← List.countP_append, List.range_eq_range', List.range_eq_range']
    have happ := List.range'_append_1 0 l.length (20 - l.length)
    rw [Nat.zero_add] at happ
    rw [happ, Nat.sub_add_cancel (le_of_lt h20)]
  have htotal : (fillCyclic l 20).count x
      = (List.range 20).countP (fun k => decide (k % l.length = j)) := by
    rw [hfill, List.count_append, hcl, hmap, ← hsplit, hrangeN]
  rw [htotal, countP_mod_range l.length j h0 hjN 20]
  by_cases hj20 : j < 20 % l.length
  · right
    rw [if_pos hj20,
      ceil_div_twenty l.length h0 (Nat.lt_of_le_of_lt (Nat.zero_le j) hj20)]
  · left
    rw [if_neg hj20]
    exact Nat.add_zero _

/-- **C7 (amended).**  The struggling-session sizing guarantees hold per
*presentable item* (after cloze expansion), with `N` the number of items:
whenever the selector returns a batch and `N ≥ 20`, the batch is truncated
to exactly 20 items drawn from the item pool (after shuffling); and when
`0 < N < 20` (items pairwise distinct, as database rows are), the batch has
exactly 20 items and each item appears either `⌈20/N⌉` or `⌊20/N⌋` times.
For decks of basic/reverse cards every card yields exactly one item, so
there the guarantee reads per card as the original claim states. -/
theorem c7_struggling_sizing (cards : List Card) (items : List CardItem)
    (s1 s2 : List CardItem → List CardItem)
    (hs1 : ∀ l, (s1 l).Perm l) (hs2 : ∀ l, (s2 l).Perm l)
    (hitems : items = expandCards (strugglingCards cards))
    (batch : List CardItem)
    (hbatch : review_struggling_batch cards s1 s2 = some batch) :
    (20 ≤ items.length → batch.length = 20 ∧ ∀ x ∈ batch, x ∈ items)
      ∧ (0 < items.length → items.length < 20 → items.Nodup →
          batch.length = 20
          ∧ ∀ x ∈ items,
              batch.count x = 20 / items.length
              ∨ batch.count x = (20 + items.length - 1) / items.length) := by
  have hperm : (s1 (expandCards (strugglingCards cards))).Perm items := by
    rw [hitems]
    exact hs1 _
  have hlen : (s1 (expandCards (strugglingCards cards))).length = items.length :=
    hperm.length_eq
  rw [review_struggling_batch] at hbatch
  split at hbatch
  · exact Option.noConfusion hbatch
  · have hsized := Option.some.inj hbatch
    constructor
    · intro h20
      rw [← hsized]
      split
      · refine ⟨?_, ?_⟩
        · rw [List.length_take, hlen]
          omega
        · intro x hxmem
          exact hperm.mem_iff.mp (List.mem_of_mem_take hxmem)
      · rw [if_neg (by omega)]
        exact ⟨by omega, fun x hxmem => hperm.mem_iff.mp hxmem⟩
    · intro hN0 hN20 hnd
      rw [← hsized]
      rw [if_neg (by omega), if_pos (by omega)]
      have hndl : (s1 (expandCards (strugglingCards cards))).Nodup :=
        hperm.nodup_iff.mpr hnd
      have hfill20 : (fillCyclic (s1 (expandCards (strugglingCards cards))) 20).length
          = 20 := by
        rw [fillCyclic, fillLoopAux_eq _ 20 20 _ (by omega)]
        rw [List.length_append, List.length_map, List.length_range']
        omega
      constructor
      · rw [(hs2 _).length_eq, hfill20]
      · intro x hxitems
        have hxl : x ∈ s1 (expandCards (strugglingCards cards)) :=
          hperm.mem_iff.mpr hxitems
        rw [List.Perm.count_eq
          (hs2 (fillCyclic (s1 (expandCards (strugglingCards cards))) 20)) x]
        have := count_fillCyclic (s1 (expandCards (strugglingCards cards))) x
          hndl hxl (by omega) (by omega)
        rw [hlen] at this
        exact this

/-- Witness for `c7_struggling_sizing`: two struggling basic cards
(`N = 2` items) with identity shuffles; each appears `20 / 2 = 10` times in
the 20-item batch. -/
theorem c7_struggling_sizing_witness :
    ((20:ℕ) ≤ ([⟨2, CardType.basic, none⟩, ⟨3, CardType.basic, none⟩] : List CardItem).length →
        ((review_struggling_batch [wCardStrug2, wCardStrug3] id id).getD []).length = 20
        ∧ ∀ x ∈ (review_struggling_batch [wCardStrug2, wCardStrug3] id id).getD [],
            x ∈ ([⟨2, CardType.basic, none⟩, ⟨3, CardType.basic, none⟩] : List CardItem))
      ∧ ((0:ℕ) < 2 → (2:ℕ) < 20 →
          ([⟨2, CardType.basic, none⟩, ⟨3, CardType.basic, none⟩] : List CardItem).Nodup →
          ((review_struggling_batch [wCardStrug2, wCardStrug3] id id).getD []).length = 20
          ∧ ∀ x ∈ ([⟨2, CardType.basic, none⟩, ⟨3, CardType.basic, none⟩] : List CardItem),
              ((review_struggling_batch [wCardStrug2, wCardStrug3] id id).getD []).count x = 20 / 2
              ∨ ((review_struggling_batch [wCardStrug2, wCardStrug3] id id).getD []).count x
                = (20 + 2 - 1) / 2) := by
  have h := c7_struggling_sizing [wCardStrug2, wCardStrug3]
    [⟨2, CardType.basic, none⟩, ⟨3, CardType.basic, none⟩] id id
    (fun l => List.Perm.refl l) (fun l => List.Perm.refl l)
    (by decide)
    ((review_struggling_batch [wCardStrug2, wCardStrug3] id id).getD [])
    (by decide)
  exact h

/-! ## Claim C10 — schedule invariants along any review sequence -/

/-- Rounding never drops below an integer lower bound of its argument. -/
theorem le_pyRound_of_le (n : ℤ) (x : ℚ) (h : (n : ℚ) ≤ x) : n ≤ pyRound x := by
  have hf : n ≤ ⌊x⌋ := Int.le_floor.mpr h
  simp only [pyRound]
  split_ifs <;> omega

/-- One successful review step preserves the schedule invariant:
ease stays above the floor, the new interval is at least one day,
repetitions stay non-negative and the next review is scheduled exactly
`interval` days after the review time. -/
theorem review_step_invariant (e : ℚ) (i reps q : ℤ) (t : ℚ) (r : ReviewResult)
    (he : MIN_EASE_FACTOR ≤ e) (hreps : 0 ≤ reps)
    (hi : 1 ≤ i ∨ (i = 0 ∧ reps = 0))
    (hq0 : 0 ≤ q) (hq5 : q ≤ 5)
    (hok : calculate_review e i reps q t = .ok r) :
    MIN_EASE_FACTOR ≤ r.ease_factor ∧ 1 ≤ r.interval ∧ 0 ≤ r.repetitions
      ∧ r.next_review = t + (r.interval : ℚ) := by
  rw [calculate_review, if_neg (by omega)] at hok
  have hr := Except.ok.inj hok
  subst hr
  refine ⟨le_max_left _ _, ?_, ?_, rfl⟩
  · show 1 ≤ (calculate_interval i reps e q).1
    rw [calculate_interval]
    by_cases hq3 : q < 3
    · rw [if_pos hq3]
    · rw [if_neg hq3]
      by_cases h0 : reps = 0
      · simp [h0, FIRST_INTERVAL]
      · by_cases h1 : reps = 1
        · simp [h0, h1, SECOND_INTERVAL]
        · simp only [h0, h1, if_false]
          have hi1 : 1 ≤ i := by
            rcases hi with hi | ⟨-, habs⟩
            · exact hi
            · exact absurd habs h0
          apply le_pyRound_of_le
          have hcast : (1:ℚ) ≤ (i:ℚ) := by exact_mod_cast hi1
          rw [MIN_EASE_FACTOR] at he
          have h1e : (1:ℚ) ≤ e := by linarith
          have hmul : (1:ℚ) * 1 ≤ (i:ℚ) * e :=
            mul_le_mul hcast h1e (by norm_num) (by linarith)
          push_cast
          linarith
  · show 0 ≤ (calculate_interval i reps e q).2
    rw [calculate_interval]
    by_cases hq3 : q < 3
    · rw [if_pos hq3]
    · rw [if_neg hq3]
      show 0 ≤ reps + 1
      omega

/-- Soundness of `reviewTrace` from any state satisfying the invariant:
every review in a quality-valid sequence succeeds, and after each one the
schedule satisfies the claimed bounds. -/
theorem reviewTrace_sound (rs : List (ℤ × ℚ)) :
    ∀ (e : ℚ) (i reps : ℤ),
      MIN_EASE_FACTOR ≤ e → 0 ≤ reps → (1 ≤ i ∨ (i = 0 ∧ reps = 0)) →
      (∀ p ∈ rs, 0 ≤ p.1 ∧ p.1 ≤ 5) →
      ∃ trace, reviewTrace e i reps rs = some trace
        ∧ trace.length = rs.length
        ∧ ∀ pr ∈ trace.zip rs,
            MIN_EASE_FACTOR ≤ pr.1.ease_factor
            ∧ 1 ≤ pr.1.interval
            ∧ 0 ≤ pr.1.repetitions
            ∧ pr.1.next_review = pr.2.2 + (pr.1.interval : ℚ)
            ∧ pr.2.2 < pr.1.next_review := by
  induction rs with
  | nil =>
      intro e i reps he hreps hi hq
      exact ⟨[], rfl, rfl, by simp⟩
  | cons p rest ih =>
      intro e i reps he hreps hi hq
      obtain ⟨q, t⟩ := p
      have hq0 : 0 ≤ q := (hq (q, t) (List.mem_cons_self _ _)).1
      have hq5 : q ≤ 5 := (hq (q, t) (List.mem_cons_self _ _)).2
      obtain ⟨r, hok⟩ : ∃ r, calculate_review e i reps q t = .ok r :=
        ⟨_, by rw [calculate_review, if_neg (by omega)]⟩
      have hinv := review_step_invariant e i reps q t r he hreps hi hq0 hq5 hok
      obtain ⟨trace1, htr1, hlen1, hprops1⟩ :=
        ih _ _ _ hinv.1 hinv.2.2.1 (Or.inl hinv.2.1)
          (fun p2 hp2 => hq p2 (List.mem_cons_of_mem _ hp2))
      refine ⟨r :: trace1, ?_, by simp [hlen1], ?_⟩
      · show (match calculate_review e i reps q t with
          | .error _ => none
          | .ok r2 =>
              (reviewTrace r2.ease_factor r2.interval r2.repetitions rest).map
                (r2 :: ·)) = some (r :: trace1)
        rw [hok]
        show (reviewTrace r.ease_factor r.interval r.repetitions rest).map (r :: ·)
            = some (r :: trace1)
        rw [htr1]
        rfl
      · intro pr hpr
        rw [List.zip_cons_cons] at hpr
        rcases List.mem_cons.mp hpr with heq | hmem
        · subst heq
          refine ⟨hinv.1, hinv.2.1, hinv.2.2.1, hinv.2.2.2, ?_⟩
          rw [hinv.2.2.2]
          have hcast : (1:ℚ) ≤ ((r.interval : ℤ) : ℚ) := by
            exact_mod_cast hinv.2.1
          linarith
        · exact hprops1 pr hmem

/-- **C10 (confirmed).**  Starting from the default schedule (ease 2.5,
interval 0, repetitions 0) and applying any finite sequence of reviews with
qualities in `[0,5]`, every review succeeds and after each one the schedule
satisfies: ease factor ≥ 1.3, interval ≥ 1, repetitions ≥ 0, and the next
review equals that review's time plus the interval in days — hence strictly
later than the review time. -/
theorem c10_schedule_invariants (rs : List (ℤ × ℚ))
    (hq : ∀ p ∈ rs, 0 ≤ p.1 ∧ p.1 ≤ 5) :
    ∃ trace, reviewTrace DEFAULT_EASE_FACTOR 0 0 rs = some trace
      ∧ trace.length = rs.length
      ∧ ∀ pr ∈ trace.zip rs,
          MIN_EASE_FACTOR ≤ pr.1.ease_factor
          ∧ 1 ≤ pr.1.interval
          ∧ 0 ≤ pr.1.repetitions
          ∧ pr.1.next_review = pr.2.2 + (pr.1.interval : ℚ)
          ∧ pr.2.2 < pr.1.next_review :=
  reviewTrace_sound rs DEFAULT_EASE_FACTOR 0 0
    (by norm_num [MIN_EASE_FACTOR, DEFAULT_EASE_FACTOR])
    le_rfl (Or.inr ⟨rfl, rfl⟩) hq

/-- Witness for `c10_schedule_invariants`: a success (quality 5 at time 0)
followed by a failure (quality 2 at time 1). -/
theorem c10_schedule_invariants_witness :
    ∃ trace, reviewTrace DEFAULT_EASE_FACTOR 0 0 [((5:ℤ), (0:ℚ)), (2, 1)]
        = some trace
      ∧ trace.length = [((5:ℤ), (0:ℚ)), (2, 1)].length
      ∧ ∀ pr ∈ trace.zip [((5:ℤ), (0:ℚ)), (2, 1)],
          MIN_EASE_FACTOR ≤ pr.1.ease_factor
          ∧ 1 ≤ pr.1.interval
          ∧ 0 ≤ pr.1.repetitions
          ∧ pr.1.next_review = pr.2.2 + (pr.1.interval : ℚ)
          ∧ pr.2.2 < pr.1.next_review :=
  c10_schedule_invariants [((5:ℤ), (0:ℚ)), (2, 1)] (by decide)

end Spaced
